import Mathlib

/-!
Verification of the chained interval-remapping engine of `src/day_05.rs`
(seed/soil almanac pipeline).  The Rust code is shallowly embedded:

* `Range` models Rust's half-open `Range<i64>` (field `end` is spelled
  `stop` because `end` is a Lean keyword);
* `MappingRange` models the `MappingRange` struct (source range + offset);
* `Range.shr` models `impl Shr<&MappingRange> for Range<i64>` (the overlap
  classifier); `shrInt` models `impl Shr<&MappingRange> for i64`;
* `Mapping` and `Almanac` model the structs of the same names; the Rust
  `HashMap<String, Mapping>` built by `collect` over `(mapping.from, mapping)`
  pairs is modelled as an association list with last-entry-wins lookup
  (`hmLookup`), which is `HashMap::from_iter`'s overwrite semantics;
* `mapIds`/`mapRanges` model `Almanac::map_ids`/`Almanac::map_ranges`.
  The Rust `loop`s become fuel-indexed recursion: `none` means the loop has
  not finished within the given fuel, `some (.error e)` is Rust's `Err(e)`,
  `some (.ok v)` is `Ok(v)`.  The Rust `Vec`s used as stacks (`push` at the
  back, `pop` from the back) are modelled as lists with the top of the stack
  at the head, so a returned list is the reverse of the Rust vector; all
  order-insensitive properties (membership, minimum, pairwise disjointness)
  are unaffected.
-/

namespace Day05

/-- Rust `Range<i64>`: the half-open interval `[start, stop)`. -/
structure Range where
  start : Int
  stop : Int
deriving DecidableEq, Repr

/-- Rust struct `MappingRange { range, offset }`. -/
structure MappingRange where
  range : Range
  offset : Int
deriving DecidableEq, Repr

/-- `MappingRange::new(dest, src, len)`. -/
def MappingRange.new (dest src len : Int) : MappingRange :=
  { range := ⟨src, src + len⟩, offset := dest - src }

/-- `impl Shr<&MappingRange> for i64`: `rhs.range.contains(&self).then_some(self + rhs.offset)`. -/
def shrInt (i : Int) (rhs : MappingRange) : Option Int :=
  if rhs.range.start ≤ i ∧ i < rhs.range.stop then some (i + rhs.offset) else none

/-- `impl Shr<&MappingRange> for Range<i64>`: the overlap classifier.
The Rust `match (self_min.cmp(&min), self_max.cmp(&max))` is rendered as
nested comparisons covering exactly the same cases. -/
def Range.shr (q : Range) (rhs : MappingRange) : Option (Range × List Range) :=
  let mn := rhs.range.start
  let mx := rhs.range.stop
  let smin := q.start
  let smax := q.stop
  -- "Check if the ranges are exclusive"
  if (smin < mn ∧ smax - 1 < mn) ∨ (smin > mx - 1 ∧ smax > mx) then
    none
  else if smin < mn then
    if smax ≤ mx then
      -- (Less, Less) | (Less, Equal): left overflow
      some (⟨mn + rhs.offset, smax + rhs.offset⟩, [⟨smin, mn⟩])
    else
      -- (Less, Greater): left & right overflow
      some (⟨mn + rhs.offset, mx + rhs.offset⟩, [⟨smin, mn⟩, ⟨mx, smax⟩])
  else if smax > mx then
    -- (Equal, Greater) | (Greater, Greater): right overflow
    some (⟨smin + rhs.offset, mx + rhs.offset⟩, [⟨mx, smax⟩])
  else
    -- (Equal, Less) | (Greater, Equal) | (Equal, Equal) | (Greater, Less): full overlap
    some (⟨smin + rhs.offset, smax + rhs.offset⟩, [])

/-- Rust struct `Mapping { from, to, ranges }` (`from` and `to` are Lean keywords). -/
structure Mapping where
  from_ : String
  to_ : String
  ranges : List MappingRange
deriving DecidableEq, Repr

/-- Lookup in the association list modelling the Rust `HashMap`:
`collect` over an iterator overwrites earlier entries, so the last
binding of a key wins. -/
def hmLookup (maps : List (String × Mapping)) (key : String) : Option Mapping :=
  maps.foldl (fun acc p => if p.1 = key then some p.2 else acc) none

/-- Rust struct `Almanac`. -/
structure Almanac where
  start_ids : List Int
  maps : List (String × Mapping)
  first_field : String
  last_field : String
deriving DecidableEq, Repr

/-- The per-stage scalar step of `map_ids`:
`mapping.ranges.iter().find_map(|range| current_id >> range)`, keeping the
old id when no rule matches. -/
def mapScalar (rules : List MappingRange) (id : Int) : Int :=
  match rules.findSome? (fun r => shrInt id r) with
  | some v => v
  | none => id

/-- The inner `loop` of `Almanac::map_ids` for one seed: look up the stage,
apply the first matching rule (identity fallback), advance to `mapping.to_`,
stop when that equals `last_field`. -/
def mapIdGo (maps : List (String × Mapping)) (last : String) (key : String) (id : Int) :
    Nat → Option (Except String Int)
  | 0 => none
  | fuel + 1 =>
    match hmLookup maps key with
    | none => some (.error ("Couldn't find the required mapping: " ++ key))
    | some mapping =>
      let current := mapScalar mapping.ranges id
      if mapping.to_ = last then some (.ok current)
      else mapIdGo maps last mapping.to_ current fuel

/-- The outer `for id in &self.start_ids` loop of `map_ids`: the first
error aborts the whole call (Rust `?`). -/
def mapIdsGo (maps : List (String × Mapping)) (last first : String) :
    List Int → Nat → Option (Except String (List Int))
  | [], _ => some (.ok [])
  | id :: rest, fuel =>
    match mapIdGo maps last first id fuel with
    | none => none
    | some (.error e) => some (.error e)
    | some (.ok v) =>
      match mapIdsGo maps last first rest fuel with
      | none => none
      | some (.error e) => some (.error e)
      | some (.ok vs) => some (.ok (v :: vs))

/-- `Almanac::map_ids`. -/
def mapIds (a : Almanac) (fuel : Nat) : Option (Except String (List Int)) :=
  mapIdsGo a.maps a.last_field a.first_field a.start_ids fuel

/-- The seed-pair collection of `map_ranges`:
`start_ids.iter().tuples().map(|(id, len)| *id..(id + len))` — complete
`(start, length)` pairs only, a trailing unpaired value is dropped. -/
def seedRanges : List Int → List Range
  | id :: len :: rest => ⟨id, id + len⟩ :: seedRanges rest
  | _ => []

/-- The `loop` of `Almanac::map_ranges`.  `done` is `mapped_ranges`,
`pending` is `ranges_to_map`; both stacks keep the most recently pushed
element at the head (Rust pushes/pops at the back of the `Vec`).
`Vec::extend(split)` pushes the split fragments in order, so the last one
is popped first: head of `splits.reverse`. -/
def mapRangesGo (maps : List (String × Mapping)) (last : String) :
    List Range → List Range → String → Nat → Option (Except String (List Range))
  | _, _, _, 0 => none
  | done, pending, key, fuel + 1 =>
    match hmLookup maps key with
    | none => some (.error ("Couldn't find the required mapping: " ++ key))
    | some mapping =>
      match pending with
      | [] =>
        -- `std::mem::swap(&mut ranges_to_map, &mut mapped_ranges)` then advance
        if mapping.to_ = last then some (.ok done)
        else mapRangesGo maps last [] done mapping.to_ fuel
      | r :: pending' =>
        match mapping.ranges.findSome? (fun mr => Range.shr r mr) with
        | some (found, splits) =>
          mapRangesGo maps last (found :: done) (splits.reverse ++ pending') key fuel
        | none => mapRangesGo maps last (r :: done) pending' key fuel

/-- `Almanac::map_ranges`. -/
def mapRanges (a : Almanac) (fuel : Nat) : Option (Except String (List Range)) :=
  mapRangesGo a.maps a.last_field [] (seedRanges a.start_ids).reverse a.first_field fuel

/-- Length of a half-open range, as in the spec's conservation property. -/
def Range.len (r : Range) : Int := r.stop - r.start

/-- Rust `Iterator::min` over a list of `i64`, as used by `Day05::solution`
to reduce the translated ids (or fragment starts) to the final answer. -/
def rustMin (l : List Int) : Option Int :=
  l.foldl (fun acc x => match acc with | none => some x | some m => some (min m x)) none

/-- C1: For every query range Q and rule R for which the overlap classifier
returns `some (translated, leftovers)`, the length of the translated piece
plus the sum of the lengths of the leftover fragments equals the length of
Q: classification neither loses nor duplicates values. -/
theorem shr_conserves_length (q : Range) (mr : MappingRange) (t : Range) (ls : List Range)
    (h : q.shr mr = some (t, ls)) :
    t.len + (ls.map Range.len).sum = q.len := by
  simp only [Range.shr] at h
  split_ifs at h <;>
    simp only [Option.some.injEq, Prod.mk.injEq, reduceCtorEq] at h <;>
    obtain ⟨ht, hls⟩ := h <;> subst ht <;> subst hls <;>
    simp [Range.len] <;> ring

theorem shr_conserves_length_witness :
    (Range.mk 105 108).len + ([Range.mk 0 5, Range.mk 8 10].map Range.len).sum
      = (Range.mk 0 10).len :=
  shr_conserves_length ⟨0, 10⟩ ⟨⟨5, 8⟩, 100⟩ ⟨105, 108⟩ [⟨0, 5⟩, ⟨8, 10⟩] (by decide)

/-- C2 (amended): for a NONEMPTY query range Q: if Q lies entirely left or
entirely right of R's source range the classifier returns `none`; when it
returns `some`, a fully contained Q yields no leftovers and a partial
overlap yields exactly one or two leftovers. -/
theorem shr_classification (q : Range) (mr : MappingRange) (hq : q.start < q.stop) :
    (q.stop ≤ mr.range.start ∨ mr.range.stop ≤ q.start → q.shr mr = none) ∧
    ∀ t ls, q.shr mr = some (t, ls) →
      ((mr.range.start ≤ q.start ∧ q.stop ≤ mr.range.stop) → ls = []) ∧
      (¬(mr.range.start ≤ q.start ∧ q.stop ≤ mr.range.stop) →
        ls.length = 1 ∨ ls.length = 2) := by
  constructor
  · intro h
    simp only [Range.shr]
    split_ifs with h1 h2 h3 <;> first | rfl | (exfalso; omega)
  · intro t ls h
    simp only [Range.shr] at h
    split_ifs at h with h1 h2 h3 <;>
      simp only [Option.some.injEq, Prod.mk.injEq, reduceCtorEq] at h <;>
      obtain ⟨ht, hls⟩ := h <;> subst hls
    · exact ⟨fun hc => absurd hc.1 (by omega), fun _ => Or.inl rfl⟩
    · exact ⟨fun hc => absurd hc.1 (by omega), fun _ => Or.inr rfl⟩
    · exact ⟨fun hc => absurd hc.2 (by omega), fun _ => Or.inl rfl⟩
    · exact ⟨fun _ => rfl, fun hc => absurd ⟨by omega, by omega⟩ hc⟩

/-- Counterexample to C2 as stated: the empty query range `[5, 5)` lies
entirely to the left of the rule range `[5, 10)` under half-open semantics
(`Q.stop ≤ R.start`), yet the classifier returns `some` instead of
`none`. -/
theorem shr_classification_counterexample :
    (Range.mk 5 5).stop ≤ (MappingRange.mk ⟨5, 10⟩ 0).range.start ∧
    Range.shr ⟨5, 5⟩ ⟨⟨5, 10⟩, 0⟩ = some (⟨5, 5⟩, []) := by decide

theorem shr_classification_witness : Range.shr ⟨12, 20⟩ ⟨⟨0, 10⟩, 3⟩ = none :=
  (shr_classification ⟨12, 20⟩ ⟨⟨0, 10⟩, 3⟩ (by decide)).1 (Or.inr (by decide))

/-- C8 (amended): for a nonempty query range Q and a rule with a nonempty
source range, every fragment produced by the classifier — the translated
piece and each leftover — is nonempty. -/
theorem shr_fragments_nonempty (q : Range) (mr : MappingRange) (t : Range) (ls : List Range)
    (hq : q.start < q.stop) (hr : mr.range.start < mr.range.stop)
    (h : q.shr mr = some (t, ls)) :
    t.start < t.stop ∧ ∀ x ∈ ls, x.start < x.stop := by
  simp only [Range.shr] at h
  split_ifs at h with h1 h2 h3 <;>
    simp only [Option.some.injEq, Prod.mk.injEq, reduceCtorEq] at h <;>
    obtain ⟨ht, hls⟩ := h <;> subst ht <;> subst hls <;>
    refine ⟨by simp; omega, ?_⟩ <;> intro x hx <;> simp at hx <;>
    first
      | (subst hx; simp; omega)
      | (rcases hx with hx | hx <;> subst hx <;> simp <;> omega)

/-- Counterexample to C8 as stated: for the empty query range `[5, 5)`
inside the rule range `[3, 10)` the classifier returns a translated piece
with `start == stop`. -/
theorem shr_fragments_nonempty_counterexample :
    Range.shr ⟨5, 5⟩ ⟨⟨3, 10⟩, 0⟩ = some (⟨5, 5⟩, []) ∧
    (Range.mk 5 5).start = (Range.mk 5 5).stop := by decide

theorem shr_fragments_nonempty_witness :
    (Range.mk 105 108).start < (Range.mk 105 108).stop ∧
    ∀ x ∈ [Range.mk 0 5, Range.mk 8 10], x.start < x.stop :=
  shr_fragments_nonempty ⟨0, 10⟩ ⟨⟨5, 8⟩, 100⟩ ⟨105, 108⟩ [⟨0, 5⟩, ⟨8, 10⟩]
    (by decide) (by decide) (by decide)

/-- Helper: `findSome?` skips a prefix on which the function returns `none`. -/
lemma findSome?_append_none {α β : Type} (f : α → Option β) (pre l : List α)
    (h : ∀ x ∈ pre, f x = none) :
    (pre ++ l).findSome? f = l.findSome? f := by
  induction pre with
  | nil => rfl
  | cons a pre ih =>
    rw [List.cons_append, List.findSome?_cons, h a (by simp)]
    exact ih fun x hx => h x (by simp [hx])

/-- C3: stage application is first-match-wins with identity fallback.
Scalars: if no rule of a prefix contains the value and rule `r` does, the
stage yields `value + r.offset`; if no rule at all contains it, the value
is unchanged.  Ranges: a fragment that is disjoint from every rule of the
current stage is moved to the stage's output with identical bounds. -/
theorem stage_first_match_identity :
    (∀ (pre : List MappingRange) (r : MappingRange) (post : List MappingRange) (v : Int),
        (∀ r' ∈ pre, ¬(r'.range.start ≤ v ∧ v < r'.range.stop)) →
        (r.range.start ≤ v ∧ v < r.range.stop) →
        mapScalar (pre ++ r :: post) v = v + r.offset) ∧
    (∀ (rules : List MappingRange) (v : Int),
        (∀ r ∈ rules, ¬(r.range.start ≤ v ∧ v < r.range.stop)) →
        mapScalar rules v = v) ∧
    (∀ maps last (done pending : List Range) (q : Range) key fuel mapping,
        hmLookup maps key = some mapping →
        (∀ mr ∈ mapping.ranges, Range.shr q mr = none) →
        mapRangesGo maps last done (q :: pending) key (fuel + 1) =
          mapRangesGo maps last (q :: done) pending key fuel) := by
  refine ⟨fun pre r post v hpre hr => ?_, fun rules v hnone => ?_, ?_⟩
  · rw [mapScalar, findSome?_append_none _ pre _
      (fun x hx => by simp [shrInt, hpre x hx]), List.findSome?_cons]
    simp [shrInt, hr]
  · rw [mapScalar, List.findSome?_eq_none_iff.mpr
      (fun x hx => by
        simp only [shrInt, ite_eq_right_iff]
        intro hcl
        exact absurd hcl (hnone x hx))]
  · intro maps last done pending q key fuel mapping hm hdis
    have hn : mapping.ranges.findSome? (fun mr => Range.shr q mr) = none :=
      List.findSome?_eq_none_iff.mpr hdis
    simp [mapRangesGo, hm, hn]

theorem stage_first_match_identity_witness :
    mapScalar ([] ++ MappingRange.mk ⟨0, 5⟩ 10 :: []) 3
        = 3 + (MappingRange.mk ⟨0, 5⟩ 10).offset ∧
    mapScalar [MappingRange.mk ⟨0, 5⟩ 10] 7 = 7 ∧
    mapRangesGo [("a", ⟨"a", "b", [⟨⟨0, 5⟩, 10⟩]⟩)] "b" [] [⟨6, 9⟩] "a" 1
      = mapRangesGo [("a", ⟨"a", "b", [⟨⟨0, 5⟩, 10⟩]⟩)] "b" [⟨6, 9⟩] [] "a" 0 :=
  ⟨stage_first_match_identity.1 [] ⟨⟨0, 5⟩, 10⟩ [] 3 (by simp) (by decide),
   stage_first_match_identity.2.1 [⟨⟨0, 5⟩, 10⟩] 7 (by decide),
   stage_first_match_identity.2.2 _ "b" [] [] ⟨6, 9⟩ "a" 0 ⟨"a", "b", [⟨⟨0, 5⟩, 10⟩]⟩
     (by rfl) (by decide)⟩

/-- Helper for C10: appending one element to an even-length seed list does
not change the collected seed ranges. -/
lemma seedRanges_append_even : ∀ (ids : List Int), ids.length % 2 = 0 →
    ∀ x : Int, seedRanges (ids ++ [x]) = seedRanges ids
  | [], _, _ => rfl
  | [_], h, _ => by simp at h
  | a :: b :: rest, h, x => by
    simp only [List.cons_append, seedRanges, List.cons.injEq, true_and]
    exact seedRanges_append_even rest (by simp at h; omega) x

/-- C10: with an odd-length seed list, `map_ranges` builds its initial
ranges from the complete `(start, length)` pairs only; the trailing seed is
silently dropped, and the whole computation behaves exactly as on the even
prefix (in particular it does not fail because of the odd seed and the
dropped seed contributes no fragment). -/
theorem odd_trailing_seed_dropped (ids : List Int) (x : Int)
    (maps : List (String × Mapping)) (first last : String) (fuel : Nat)
    (h : ids.length % 2 = 0) :
    seedRanges (ids ++ [x]) = seedRanges ids ∧
    mapRanges ⟨ids ++ [x], maps, first, last⟩ fuel
      = mapRanges ⟨ids, maps, first, last⟩ fuel := by
  have he := seedRanges_append_even ids h x
  exact ⟨he, by simp [mapRanges, he]⟩

theorem odd_trailing_seed_dropped_witness :
    seedRanges ([0, 5] ++ [99]) = seedRanges [0, 5] ∧
    mapRanges ⟨[0, 5] ++ [99], [("a", ⟨"a", "b", []⟩)], "a", "b"⟩ 3
      = mapRanges ⟨[0, 5], [("a", ⟨"a", "b", []⟩)], "a", "b"⟩ 3 :=
  odd_trailing_seed_dropped [0, 5] 99 [("a", ⟨"a", "b", []⟩)] "a" "b" 3 (by decide)

/-- Helper: on a unit range `[s, s+1)` the range classifier agrees with the
scalar classifier: it fires exactly when the rule contains `s`, translating
the whole unit range with no leftovers. -/
lemma shr_unit (s : Int) (mr : MappingRange) :
    Range.shr ⟨s, s + 1⟩ mr = (shrInt s mr).map (fun v => (⟨v, v + 1⟩, [])) := by
  simp only [Range.shr, shrInt]
  split_ifs <;>
    first
      | rfl
      | (exfalso; omega)
      | (simp <;> omega)

lemma findSome?_shr_unit (rules : List MappingRange) (s : Int) :
    rules.findSome? (fun mr => Range.shr ⟨s, s + 1⟩ mr)
      = (rules.findSome? (fun mr => shrInt s mr)).map (fun v => (⟨v, v + 1⟩, [])) := by
  induction rules with
  | nil => rfl
  | cons r rs ih =>
    rw [List.findSome?_cons, List.findSome?_cons, shr_unit]
    cases shrInt s r <;> simp [ih]

/-- Helper: the single-seed run of `map_ids` is tracked step by step by
`map_ranges` on the unit range `[s, s+1)`: each stage needs one pop
iteration and one queue-swap iteration. -/
lemma mapIdGo_unit (maps : List (String × Mapping)) (last : String) :
    ∀ (fuel : Nat) (key : String) (s v : Int),
      mapIdGo maps last key s fuel = some (.ok v) →
      mapRangesGo maps last [] [⟨s, s + 1⟩] key (2 * fuel) = some (.ok [⟨v, v + 1⟩])
  | 0, key, s, v => by intro h; exact absurd h (by simp [mapIdGo])
  | fuel + 1, key, s, v => by
    intro h
    rw [mapIdGo] at h
    cases hl : hmLookup maps key with
    | none => rw [hl] at h; exact absurd h (by simp)
    | some mapping =>
      rw [hl] at h
      simp only at h
      have h2 : 2 * (fuel + 1) = 2 * fuel + 1 + 1 := by ring
      rw [h2, mapRangesGo, hl]
      simp only [findSome?_shr_unit]
      have hstep :
          mapRangesGo maps last [⟨mapScalar mapping.ranges s, mapScalar mapping.ranges s + 1⟩]
            [] key (2 * fuel + 1) = some (.ok [⟨v, v + 1⟩]) := by
        rw [mapRangesGo, hl]
        simp only
        by_cases ht : mapping.to_ = last
        · rw [if_pos ht] at h ⊢
          obtain rfl : mapScalar mapping.ranges s = v := by
            simpa using h
          rfl
        · rw [if_neg ht] at h ⊢
          exact mapIdGo_unit maps last fuel mapping.to_ (mapScalar mapping.ranges s) v h
      rw [mapScalar] at hstep
      cases hs : mapping.ranges.findSome? (fun mr => shrInt s mr) with
      | none => rw [hs] at hstep; simpa using hstep
      | some w => rw [hs] at hstep; simpa using hstep

/-- C4: for every pipeline and scalar seed `s`, if `map_ids` on the single
seed list `[s]` succeeds, its sole result `v` is the start of the single
fragment `[v, v+1)` produced by `map_ranges` on the single seed pair
`(s, 1)` over the same stage table. -/
theorem scalar_range_consistency (s : Int) (maps : List (String × Mapping))
    (first last : String) (fuel : Nat) (ids : List Int)
    (h : mapIds ⟨[s], maps, first, last⟩ fuel = some (.ok ids)) :
    ∃ v, ids = [v] ∧
      mapRanges ⟨[s, 1], maps, first, last⟩ (2 * fuel) = some (.ok [⟨v, v + 1⟩]) := by
  rw [mapIds, mapIdsGo] at h
  cases hg : mapIdGo maps last first s fuel with
  | none => rw [hg] at h; exact absurd h (by simp)
  | some r =>
    cases r with
    | error e => rw [hg] at h; exact absurd h (by simp [mapIdsGo])
    | ok v =>
      rw [hg] at h
      simp only [mapIdsGo, Option.some.injEq, Except.ok.injEq] at h
      refine ⟨v, h.symm, ?_⟩
      rw [mapRanges]
      have : (seedRanges [s, 1]).reverse = [⟨s, s + 1⟩] := rfl
      rw [this]
      exact mapIdGo_unit maps last fuel first s v hg

theorem scalar_range_consistency_witness :
    ∃ v, ([7] : List Int) = [v] ∧
      mapRanges ⟨[7, 1], [("a", ⟨"a", "b", []⟩)], "a", "b"⟩ 2
        = some (.ok [⟨v, v + 1⟩]) :=
  scalar_range_consistency 7 [("a", ⟨"a", "b", []⟩)] "a" "b" 1 [7] (by rfl)

/-- Nonnegative length of a fragment, used as a termination measure. -/
def natLen (r : Range) : Nat := (r.stop - r.start).toNat

/-- Termination measure of the pending queue: every leftover produced by the
classifier is strictly shorter than the fragment it came from, so summing
`3 ^ length` strictly decreases at every pop (at most two leftovers). -/
def msr (pending : List Range) : Nat := (pending.map (fun r => 3 ^ natLen r)).sum

lemma msr_append (l1 l2 : List Range) : msr (l1 ++ l2) = msr l1 + msr l2 := by
  simp [msr]

lemma msr_reverse (l : List Range) : msr l.reverse = msr l := by
  simp [msr, List.map_reverse, List.sum_reverse]

lemma msr_cons (r : Range) (l : List Range) : msr (r :: l) = 3 ^ natLen r + msr l := by
  simp [msr]

/-- Every leftover fragment is strictly shorter than the query it split off
from (and both are then nonempty). -/
lemma shr_splits_shrink (q : Range) (mr : MappingRange) (t : Range) (ls : List Range)
    (h : q.shr mr = some (t, ls)) :
    ∀ x ∈ ls, x.start < x.stop ∧ q.start < q.stop ∧
      x.stop - x.start < q.stop - q.start := by
  simp only [Range.shr] at h
  split_ifs at h <;>
    simp only [Option.some.injEq, Prod.mk.injEq, reduceCtorEq] at h <;>
    obtain ⟨ht, hls⟩ := h <;> subst hls <;>
    intro x hx <;> simp only [List.mem_singleton, List.mem_cons,
      List.not_mem_nil, or_false] at hx
  · subst hx; simp; omega
  · rcases hx with hx | hx <;> (subst hx; simp; omega)
  · subst hx; simp; omega

/-- The pending-queue measure of the leftovers of one classification is
strictly below the measure contribution of the classified fragment. -/
lemma shr_splits_msr_lt (q : Range) (mr : MappingRange) (t : Range) (ls : List Range)
    (h : q.shr mr = some (t, ls)) :
    msr ls < 3 ^ natLen q := by
  have hs := shr_splits_shrink q mr t ls h
  have hlen : ls = [] ∨ (∃ a, ls = [a]) ∨ ∃ a b, ls = [a, b] := by
    simp only [Range.shr] at h
    split_ifs at h <;>
      simp only [Option.some.injEq, Prod.mk.injEq, reduceCtorEq] at h <;>
      obtain ⟨ht, hls⟩ := h <;> subst hls
    · exact Or.inr (Or.inl ⟨_, rfl⟩)
    · exact Or.inr (Or.inr ⟨_, _, rfl⟩)
    · exact Or.inr (Or.inl ⟨_, rfl⟩)
    · exact Or.inl rfl
  rcases hlen with rfl | ⟨a, rfl⟩ | ⟨a, b, rfl⟩
  · simpa [msr] using Nat.pow_pos (n := natLen q) (by norm_num)
  · obtain ⟨ha1, hq1, ha2⟩ := hs a (by simp)
    have : natLen a < natLen q := by simp only [natLen]; omega
    simpa [msr] using Nat.pow_lt_pow_right (by norm_num) this
  · obtain ⟨ha1, hq1, ha2⟩ := hs a (by simp)
    obtain ⟨hb1, _, hb2⟩ := hs b (by simp)
    have haq : natLen a < natLen q := by simp only [natLen]; omega
    have hbq : natLen b < natLen q := by simp only [natLen]; omega
    have hq : 1 ≤ natLen q := by omega
    have ha' : 3 ^ natLen a ≤ 3 ^ (natLen q - 1) :=
      Nat.pow_le_pow_right (by norm_num) (by omega)
    have hb' : 3 ^ natLen b ≤ 3 ^ (natLen q - 1) :=
      Nat.pow_le_pow_right (by norm_num) (by omega)
    have h3 : 3 ^ natLen q = 3 * 3 ^ (natLen q - 1) := by
      conv_lhs => rw [show natLen q = (natLen q - 1) + 1 by omega]
      rw [Nat.pow_succ]; ring
    have hmpos : 0 < 3 ^ (natLen q - 1) := Nat.pow_pos (by norm_num)
    simp only [msr, List.map_cons, List.map_nil, List.sum_cons, List.sum_nil]
    omega

/-- Processing the pending queue of one stage terminates: after finitely
many pop iterations (each consuming one unit of fuel) the queue is empty
and some list `out` of translated fragments has been pushed onto `done`. -/
lemma stage_steps (maps : List (String × Mapping)) (last key : String) (m : Mapping)
    (hm : hmLookup maps key = some m) :
    ∀ (n : Nat) (pending : List Range), msr pending ≤ n → ∀ done, ∃ k out,
      ∀ fuel, mapRangesGo maps last done pending key (k + fuel)
        = mapRangesGo maps last (out ++ done) [] key fuel := by
  intro n
  induction n with
  | zero =>
    intro pending hp done
    have hnil : pending = [] := by
      cases pending with
      | nil => rfl
      | cons r rest =>
        exfalso
        have : 0 < 3 ^ natLen r := Nat.pow_pos (by norm_num)
        rw [msr_cons] at hp
        omega
    subst hnil
    exact ⟨0, [], fun fuel => by simp⟩
  | succ n ih =>
    intro pending hp done
    cases pending with
    | nil => exact ⟨0, [], fun fuel => by simp⟩
    | cons r rest =>
      have hpos : 0 < 3 ^ natLen r := Nat.pow_pos (by norm_num)
      cases hf : m.ranges.findSome? (fun mr => Range.shr r mr) with
      | none =>
        have hrest : msr rest ≤ n := by
          rw [msr_cons] at hp; omega
        obtain ⟨k, out, hk⟩ := ih rest hrest (r :: done)
        refine ⟨k + 1, out ++ [r], fun fuel => ?_⟩
        have : k + 1 + fuel = (k + fuel) + 1 := by omega
        rw [this, mapRangesGo, hm]
        simp only [hf]
        rw [hk fuel]
        simp
      | some p =>
        obtain ⟨found, splits⟩ := p
        obtain ⟨mr, -, hshr⟩ := List.exists_of_findSome?_eq_some hf
        have hlt : msr splits < 3 ^ natLen r := shr_splits_msr_lt r mr found splits hshr
        have hnext : msr (splits.reverse ++ rest) ≤ n := by
          rw [msr_append, msr_reverse]
          rw [msr_cons] at hp
          omega
        obtain ⟨k, out, hk⟩ := ih (splits.reverse ++ rest) hnext (found :: done)
        refine ⟨k + 1, out ++ [found], fun fuel => ?_⟩
        have : k + 1 + fuel = (k + fuel) + 1 := by omega
        rw [this, mapRangesGo, hm]
        simp only [hf]
        rw [hk fuel]
        simp

/-- The spec's domain-chain invariant: following `to`-pointers from `key`
through the stage table reaches `last` within `n` lookups (every key on the
way is present in the table). -/
def chainReaches (maps : List (String × Mapping)) (last : String) : String → Nat → Prop
  | _, 0 => False
  | key, n + 1 =>
    ∃ m, hmLookup maps key = some m ∧ (m.to_ = last ∨ chainReaches maps last m.to_ n)

/-- A violated domain chain: following `to`-pointers from `key` hits a key
absent from the stage table after `n` hops, without passing `last` first. -/
def chainBroken (maps : List (String × Mapping)) (last : String) : String → Nat → Prop
  | key, 0 => hmLookup maps key = none
  | key, n + 1 =>
    ∃ m, hmLookup maps key = some m ∧ m.to_ ≠ last ∧ chainBroken maps last m.to_ n

lemma mapIdGo_total (maps : List (String × Mapping)) (last : String) :
    ∀ (n : Nat) (key : String), chainReaches maps last key n →
      ∀ s : Int, ∃ v, mapIdGo maps last key s n = some (.ok v) := by
  intro n
  induction n with
  | zero => intro key h; exact absurd h (by simp [chainReaches])
  | succ n ih =>
    intro key h s
    obtain ⟨m, hm, hd⟩ := h
    by_cases ht : m.to_ = last
    · exact ⟨mapScalar m.ranges s, by simp [mapIdGo, hm, ht]⟩
    · rcases hd with hd | hd
      · exact absurd hd ht
      · obtain ⟨v, hv⟩ := ih m.to_ hd (mapScalar m.ranges s)
        exact ⟨v, by simp [mapIdGo, hm, ht, hv]⟩

lemma mapIdsGo_total (maps : List (String × Mapping)) (last first : String) (n : Nat)
    (h : chainReaches maps last first n) :
    ∀ idsl : List Int, ∃ vs, mapIdsGo maps last first idsl n = some (.ok vs) := by
  intro idsl
  induction idsl with
  | nil => exact ⟨[], rfl⟩
  | cons id rest ih =>
    obtain ⟨v, hv⟩ := mapIdGo_total maps last n first h id
    obtain ⟨vs, hvs⟩ := ih
    exact ⟨v :: vs, by rw [mapIdsGo, hv, hvs]⟩

lemma mapRangesGo_total (maps : List (String × Mapping)) (last : String) :
    ∀ (n : Nat) (key : String), chainReaches maps last key n →
      ∀ pending : List Range, ∃ fuel out,
        mapRangesGo maps last [] pending key fuel = some (.ok out) := by
  intro n
  induction n with
  | zero => intro key h; exact absurd h (by simp [chainReaches])
  | succ n ih =>
    intro key h pending
    obtain ⟨m, hm, hd⟩ := h
    obtain ⟨k, out, hk⟩ := stage_steps maps last key m hm (msr pending) pending le_rfl []
    by_cases ht : m.to_ = last
    · refine ⟨k + 1, out, ?_⟩
      rw [hk 1, mapRangesGo, hm]
      simp [ht]
    · rcases hd with hd | hd
      · exact absurd hd ht
      · obtain ⟨fuel', out', h'⟩ := ih m.to_ hd out
        refine ⟨k + (1 + fuel'), out', ?_⟩
        rw [hk (1 + fuel')]
        have : 1 + fuel' = fuel' + 1 := by omega
        rw [this, mapRangesGo, hm]
        simpa [ht] using h'

/-- C5: for every pipeline whose domain chain reaches `last_field` from
`first_field` in finitely many hops (so in particular it does not cycle),
both `map_ids` and `map_ranges` terminate successfully: some finite fuel
makes the fueled loops return `Ok`. -/
theorem pipeline_terminates (a : Almanac) (n : Nat)
    (h : chainReaches a.maps a.last_field a.first_field n) :
    (∃ fuel ids, mapIds a fuel = some (.ok ids)) ∧
    (∃ fuel rs, mapRanges a fuel = some (.ok rs)) := by
  constructor
  · obtain ⟨vs, hvs⟩ := mapIdsGo_total a.maps a.last_field a.first_field n h a.start_ids
    exact ⟨n, vs, hvs⟩
  · obtain ⟨fuel, out, hout⟩ :=
      mapRangesGo_total a.maps a.last_field n a.first_field h
        (seedRanges a.start_ids).reverse
    exact ⟨fuel, out, hout⟩

theorem pipeline_terminates_witness :
    (∃ fuel ids, mapIds ⟨[7], [("a", ⟨"a", "b", []⟩)], "a", "b"⟩ fuel = some (.ok ids)) ∧
    (∃ fuel rs, mapRanges ⟨[7], [("a", ⟨"a", "b", []⟩)], "a", "b"⟩ fuel = some (.ok rs)) :=
  pipeline_terminates ⟨[7], [("a", ⟨"a", "b", []⟩)], "a", "b"⟩ 1
    ⟨⟨"a", "b", []⟩, by rfl, Or.inl rfl⟩

lemma mapIdGo_broken (maps : List (String × Mapping)) (last : String) :
    ∀ (n : Nat) (key : String), chainBroken maps last key n →
      ∀ s : Int, ∃ e, mapIdGo maps last key s (n + 1) = some (.error e) := by
  intro n
  induction n with
  | zero =>
    intro key h s
    have h' : hmLookup maps key = none := h
    exact ⟨"Couldn't find the required mapping: " ++ key, by simp [mapIdGo, h']⟩
  | succ n ih =>
    intro key h s
    obtain ⟨m, hm, hne, hb⟩ := h
    obtain ⟨e, he⟩ := ih m.to_ hb (mapScalar m.ranges s)
    exact ⟨e, by rw [mapIdGo, hm]; simp [hne, he]⟩

lemma mapRangesGo_broken (maps : List (String × Mapping)) (last : String) :
    ∀ (n : Nat) (key : String), chainBroken maps last key n →
      ∀ (pending done : List Range), ∃ fuel e,
        mapRangesGo maps last done pending key fuel = some (.error e) := by
  intro n
  induction n with
  | zero =>
    intro key h pending done
    have h' : hmLookup maps key = none := h
    exact ⟨0 + 1, "Couldn't find the required mapping: " ++ key,
      by simp [mapRangesGo, h']⟩
  | succ n ih =>
    intro key h pending done
    obtain ⟨m, hm, hne, hb⟩ := h
    obtain ⟨k, out, hk⟩ := stage_steps maps last key m hm (msr pending) pending le_rfl done
    obtain ⟨fuel', e, h'⟩ := ih m.to_ hb (out ++ done) []
    refine ⟨k + (1 + fuel'), e, ?_⟩
    rw [hk (1 + fuel')]
    have : 1 + fuel' = fuel' + 1 := by omega
    rw [this, mapRangesGo, hm]
    simpa [hne] using h'

/-- C6 (amended): if the walk along `to`-pointers from `first_field` hits a
domain absent from the stage table before reaching `last_field`, then
`map_ranges` surfaces the violation as a lookup error, and so does
`map_ids` provided the seed list is nonempty (with no seeds `map_ids`
returns `Ok([])` without ever looking up a stage). -/
theorem broken_chain_errors (a : Almanac) (n : Nat)
    (h : chainBroken a.maps a.last_field a.first_field n) :
    (a.start_ids ≠ [] → ∃ fuel e, mapIds a fuel = some (.error e)) ∧
    (∃ fuel e, mapRanges a fuel = some (.error e)) := by
  obtain ⟨ids, maps, first, last⟩ := a
  simp only at h
  constructor
  · intro hne
    cases ids with
    | nil => exact absurd rfl hne
    | cons id rest =>
      obtain ⟨e, he⟩ := mapIdGo_broken maps last n first h id
      exact ⟨n + 1, e, by simp [mapIds, mapIdsGo, he]⟩
  · obtain ⟨fuel, e, he⟩ :=
      mapRangesGo_broken maps last n first h (seedRanges ids).reverse []
    exact ⟨fuel, e, he⟩

theorem broken_chain_errors_witness :
    (∃ fuel e, mapIds ⟨[7], [("a", ⟨"a", "x", []⟩)], "a", "b"⟩ fuel = some (.error e)) ∧
    (∃ fuel e, mapRanges ⟨[7], [("a", ⟨"a", "x", []⟩)], "a", "b"⟩ fuel = some (.error e)) :=
  ⟨(broken_chain_errors ⟨[7], [("a", ⟨"a", "x", []⟩)], "a", "b"⟩ 1
      ⟨⟨"a", "x", []⟩, rfl, by decide, rfl⟩).1 (by simp),
   (broken_chain_errors ⟨[7], [("a", ⟨"a", "x", []⟩)], "a", "b"⟩ 1
      ⟨⟨"a", "x", []⟩, rfl, by decide, rfl⟩).2⟩

/-- Counterexample to C6 as stated: this pipeline violates the domain-chain
invariant (`first_field = "a"` is absent from the empty stage table and is
not `last_field = "b"`), yet `map_ids` returns `Ok([])` — not an error —
because its per-seed loop never runs on an empty seed list. -/
theorem broken_chain_errors_counterexample :
    hmLookup ([] : List (String × Mapping)) "a" = none ∧ "a" ≠ "b" ∧
    mapIds ⟨[], [], "a", "b"⟩ 1 = some (.ok []) :=
  ⟨rfl, by decide, rfl⟩

/-- The standard example pipeline (the data `Almanac::try_from` builds from
the worked example input): seeds `[79, 14, 55, 13]`, stages seed-to-soil
`[(50,98,2),(52,50,48)]`, soil-to-fertilizer `[(0,15,37),(37,52,2),(39,0,15)]`,
and the rest of the standard chain down to `location`. -/
def exMaps : List (String × Mapping) :=
  [ ("seed", ⟨"seed", "soil",
      [MappingRange.new 50 98 2, MappingRange.new 52 50 48]⟩),
    ("soil", ⟨"soil", "fertilizer",
      [MappingRange.new 0 15 37, MappingRange.new 37 52 2, MappingRange.new 39 0 15]⟩),
    ("fertilizer", ⟨"fertilizer", "water",
      [MappingRange.new 49 53 8, MappingRange.new 0 11 42, MappingRange.new 42 0 7,
       MappingRange.new 57 7 4]⟩),
    ("water", ⟨"water", "light",
      [MappingRange.new 88 18 7, MappingRange.new 18 25 70]⟩),
    ("light", ⟨"light", "temperature",
      [MappingRange.new 45 77 23, MappingRange.new 81 45 19, MappingRange.new 68 64 13]⟩),
    ("temperature", ⟨"temperature", "humidity",
      [MappingRange.new 0 69 1, MappingRange.new 1 0 69]⟩),
    ("humidity", ⟨"humidity", "location",
      [MappingRange.new 60 56 37, MappingRange.new 56 93 4]⟩) ]

def exAlmanac : Almanac := ⟨[79, 14, 55, 13], exMaps, "seed", "location"⟩

/-- The final fragment set `map_ranges` computes for the example (stack
order; the Rust `Vec` holds the same fragments reversed). -/
def exFragments : List Range :=
  [⟨82, 85⟩, ⟨46, 56⟩, ⟨60, 61⟩, ⟨97, 99⟩, ⟨56, 60⟩, ⟨94, 97⟩, ⟨86, 90⟩]

/-- C9: on the standard example pipeline the scalar translator yields
`[82, 43, 86, 35]` in seed order with minimum `35`, and the range
translator (seeds read as `(start, length)` pairs `(79,14)`, `(55,13)`)
yields a fragment set whose minimum start is `46`. -/
theorem example_end_to_end :
    mapIds exAlmanac 10 = some (.ok [82, 43, 86, 35]) ∧
    rustMin [82, 43, 86, 35] = some 35 ∧
    mapRanges exAlmanac 500 = some (.ok exFragments) ∧
    rustMin (exFragments.map Range.start) = some 46 :=
  ⟨by rfl, by decide, by rfl, by decide⟩

/-- Counterexample to C7 as stated: a pipeline with overlapping seed ranges
(seeds `[0,10,5,10]`, one rule-less stage) terminates successfully, but the
returned fragments `[0,10)` and `[5,15)` are distinct and share the
element `5`. -/
theorem map_ranges_disjoint_counterexample :
    mapRanges ⟨[0, 10, 5, 10], [("a", ⟨"a", "b", []⟩)], "a", "b"⟩ 3
        = some (.ok [⟨0, 10⟩, ⟨5, 15⟩]) ∧
    (Range.mk 0 10 ≠ Range.mk 5 15) ∧
    ((Range.mk 0 10).start ≤ 5 ∧ (5 : Int) < (Range.mk 0 10).stop) ∧
    ((Range.mk 5 15).start ≤ 5 ∧ (5 : Int) < (Range.mk 5 15).stop) :=
  ⟨rfl, by decide, by decide, by decide⟩

/-- C7 (amended): the final fragment set need not be pairwise disjoint for
arbitrary pipelines (overlapping seed ranges, or rules sending distinct
sources to one destination, produce overlapping output); for the standard
example pipeline the final fragment set IS pairwise non-overlapping: no two
distinct fragments share an element. -/
theorem map_ranges_example_disjoint :
    ∃ rs, mapRanges exAlmanac 500 = some (.ok rs) ∧
      rs.Pairwise (fun r1 r2 => ∀ x : Int,
        ¬((r1.start ≤ x ∧ x < r1.stop) ∧ (r2.start ≤ x ∧ x < r2.stop))) := by
  refine ⟨exFragments, by rfl, ?_⟩
  have h : exFragments.Pairwise (fun r1 r2 => r1.stop ≤ r2.start ∨ r2.stop ≤ r1.start) := by
    decide
  exact h.imp fun hab x hx => by rcases hab with h' | h' <;> omega

end Day05
